import Mathlib

/-!
Verification of the ranking-metric core of the ws-vrd repository
(src/xib/ignite/metrics.py): the pure functions mean_average_precision,
precision_at and recall_at, the batch- and epoch-scoped metric wrappers,
and the BatchMetric.attach hook registration.

Numbers are modelled exactly: scores and annotations are rationals, and
float results (which may be NaN or infinite through 0/0 or x/0 divisions)
live in the four-constructor type TVal below.  NaN propagation follows
IEEE-754 (any arithmetic with a NaN operand is NaN, 0 * inf is NaN).
-/

deriving instance DecidableEq for Except

attribute [local semireducible] Rat.mul Rat.inv Rat.add Rat.sub

namespace WsVrd

/-- A floating-point result: a finite rational, +inf, -inf, or NaN. -/
inductive TVal where
  | num (q : ℚ)
  | inf
  | ninf
  | nan
deriving DecidableEq, Repr

namespace TVal

/-- IEEE-like addition on TVal: NaN propagates, inf + (-inf) is NaN. -/
def add : TVal → TVal → TVal
  | num a, num b => num (a + b)
  | num _, inf => inf
  | inf, num _ => inf
  | inf, inf => inf
  | num _, ninf => ninf
  | ninf, num _ => ninf
  | ninf, ninf => ninf
  | _, _ => nan

/-- IEEE-like negation on TVal. -/
def neg : TVal → TVal
  | num a => num (-a)
  | inf => ninf
  | ninf => inf
  | nan => nan

/-- IEEE-like subtraction on TVal. -/
def sub (a b : TVal) : TVal := add a (neg b)

/-- IEEE-like multiplication on TVal: NaN propagates, 0 * inf is NaN. -/
def mul : TVal → TVal → TVal
  | num a, num b => num (a * b)
  | num a, inf => if a = 0 then nan else if 0 < a then inf else ninf
  | inf, num a => if a = 0 then nan else if 0 < a then inf else ninf
  | num a, ninf => if a = 0 then nan else if 0 < a then ninf else inf
  | ninf, num a => if a = 0 then nan else if 0 < a then ninf else inf
  | inf, inf => inf
  | ninf, ninf => inf
  | inf, ninf => ninf
  | ninf, inf => ninf
  | _, _ => nan

@[simp] theorem add_nan : ∀ a : TVal, add a nan = nan := by
  intro a; cases a <;> rfl

@[simp] theorem nan_add : ∀ a : TVal, add nan a = nan := by
  intro a; cases a <;> rfl

@[simp] theorem nan_mul : ∀ a : TVal, mul nan a = nan := by
  intro a; cases a <;> rfl

@[simp] theorem mul_nan : ∀ a : TVal, mul a nan = nan := by
  intro a; cases a <;> rfl

@[simp] theorem sub_nan : ∀ a : TVal, sub a nan = nan := by
  intro a; cases a <;> rfl

@[simp] theorem add_num_num (a b : ℚ) : add (num a) (num b) = num (a + b) := rfl

end TVal

/-- Float division of two exact rationals: q / 0 is NaN for q = 0 and
a signed infinity otherwise, exactly as IEEE-754 division behaves. -/
def divQ (a b : ℚ) : TVal :=
  if b = 0 then (if a = 0 then TVal.nan else if 0 < a then TVal.inf else TVal.ninf)
  else TVal.num (a / b)

/-- Float division of a rational by a Python int (used for `cumsum / s`). -/
def divQZ (a : ℚ) (s : ℤ) : TVal := divQ a (s : ℚ)

/-- Division of a TVal by a positive count (used by means). -/
def divByNat (v : TVal) (n : ℕ) : TVal :=
  if n = 0 then TVal.nan else
  match v with
  | TVal.num a => TVal.num (a / (n : ℚ))
  | TVal.inf => TVal.inf
  | TVal.ninf => TVal.ninf
  | TVal.nan => TVal.nan

/-- Sum of a list of float values (NaN propagates). -/
def tsum (l : List TVal) : TVal := l.foldl TVal.add (TVal.num 0)

/-- torch `Tensor.mean`: NaN on an empty tensor, otherwise sum / count. -/
def tmean (l : List TVal) : TVal :=
  if l.length = 0 then TVal.nan else divByNat (tsum l) l.length

/-- np.nanmean: drop the NaN entries and average the rest; all-NaN input
(or an empty input) yields NaN. -/
def nanmean (l : List TVal) : TVal :=
  let ns := l.filter (fun v => decide (v ≠ TVal.nan))
  if ns.length = 0 then TVal.nan else divByNat (tsum ns) ns.length

theorem foldl_add_nan (l : List TVal) : l.foldl TVal.add TVal.nan = TVal.nan := by
  induction l with
  | nil => rfl
  | cons x xs ih => simp only [List.foldl_cons, TVal.nan_add]; exact ih

theorem tsum_eq_nan_of_mem (l : List TVal) (h : TVal.nan ∈ l) : tsum l = TVal.nan := by
  have key : ∀ (l : List TVal) (a : TVal), TVal.nan ∈ l → l.foldl TVal.add a = TVal.nan := by
    intro l
    induction l with
    | nil => intro a ha; cases ha
    | cons x xs ih =>
      intro a ha
      rcases List.mem_cons.mp ha with hx | hxs
      · subst hx
        simp only [List.foldl_cons, TVal.add_nan]
        exact foldl_add_nan xs
      · exact ih _ hxs
  exact key l (TVal.num 0) h

theorem tmean_eq_nan_of_mem (l : List TVal) (h : TVal.nan ∈ l) : tmean l = TVal.nan := by
  have hne : l.length ≠ 0 := by
    intro h0
    rw [List.length_eq_zero] at h0
    subst h0; cases h
  simp [tmean, hne, tsum_eq_nan_of_mem l h, divByNat]

/-- A 2-D tensor / array with exact rational entries. -/
abbrev Mat := List (List ℚ)

/-- Effectful map over a list, stopping at the first raised error
(the shape of every Python loop in the translated code). -/
def mapME (f : α → Except String β) : List α → Except String (List β)
  | [] => .ok []
  | x :: xs =>
    match f x with
    | .error e => .error e
    | .ok y =>
      match mapME f xs with
      | .error e => .error e
      | .ok ys => .ok (y :: ys)

theorem mapME_ok (f : α → Except String β) (g : α → β) (l : List α)
    (h : ∀ x ∈ l, f x = .ok (g x)) : mapME f l = .ok (l.map g) := by
  induction l with
  | nil => rfl
  | cons x xs ih =>
    have hx := h x (List.mem_cons_self x xs)
    have hxs := ih (fun y hy => h y (List.mem_cons_of_mem x hy))
    simp [mapME, hx, hxs]

theorem mapME_error (f : α → Except String β) (l : List α) (x : α) (hx : x ∈ l)
    (e : String) (he : f x = .error e) : ∃ msg, mapME f l = .error msg := by
  induction l with
  | nil => cases hx
  | cons y ys ih =>
    rcases List.mem_cons.mp hx with hxy | hmem
    · subst hxy
      exact ⟨e, by simp [mapME, he]⟩
    · match hfy : f y with
      | .error e2 => exact ⟨e2, by simp [mapME, hfy]⟩
      | .ok v =>
        obtain ⟨msg, hmsg⟩ := ih hmem
        exact ⟨msg, by simp [mapME, hfy, hmsg]⟩

/-- Running sums of a list, continuing from an accumulator. -/
def cumsumFrom (acc : ℚ) : List ℚ → List ℚ
  | [] => []
  | x :: xs => (acc + x) :: cumsumFrom (acc + x) xs

/-- torch `Tensor.cumsum(dim=1)` on one row. -/
def cumsumRow (r : List ℚ) : List ℚ := cumsumFrom 0 r

@[simp] theorem length_cumsumFrom (acc : ℚ) (r : List ℚ) :
    (cumsumFrom acc r).length = r.length := by
  induction r generalizing acc with
  | nil => rfl
  | cons x xs ih => simp [cumsumFrom, ih]

@[simp] theorem length_cumsumRow (r : List ℚ) : (cumsumRow r).length = r.length :=
  length_cumsumFrom 0 r

theorem getD_cumsumFrom (acc : ℚ) (r : List ℚ) (j : ℕ) (hj : j < r.length) :
    (cumsumFrom acc r).getD j 0 = acc + (r.take (j + 1)).sum := by
  induction r generalizing acc j with
  | nil => simp at hj
  | cons x xs ih =>
    cases j with
    | zero => simp [cumsumFrom]
    | succ k =>
      have hk : k < xs.length := by simpa using hj
      simp only [cumsumFrom, List.getD_cons_succ, List.take_succ_cons, List.sum_cons]
      rw [ih (acc + x) k hk]
      ring

theorem getD_cumsumRow (r : List ℚ) (j : ℕ) (hj : j < r.length) :
    (cumsumRow r).getD j 0 = (r.take (j + 1)).sum := by
  have := getD_cumsumFrom 0 r j hj
  simpa [cumsumRow] using this

/-- The number of columns of a rectangular 2-D tensor. -/
def matWidth (rows : List (List α)) : ℕ := (rows.headD []).length

/-- Every row has the same length (tensors are rectangular by construction;
this is the embedding-level invariant standing for that fact). -/
def isRectB (rows : List (List α)) : Bool :=
  rows.all (fun r => r.length == matWidth rows)

/-- All entries lie in the set containing 0 and 1. -/
def binaryB (A : Mat) : Bool := A.all (fun r => r.all (fun q => q == 0 || q == 1))

/-- All entries are 0 (no positive annotation anywhere). -/
def allZeroB (A : Mat) : Bool := A.all (fun r => r.all (fun q => q == 0))

/-- Comparison used by the descending argsort of one score row: higher
score first, ties broken by the lower original index. -/
def rankLe (row : List ℚ) (i j : ℕ) : Prop :=
  row.getD j 0 < row.getD i 0 ∨ (row.getD i 0 = row.getD j 0 ∧ i ≤ j)

instance rankLeDecidable (row : List ℚ) : DecidableRel (rankLe row) :=
  fun i j => by unfold rankLe; infer_instance

/-- torch.argsort(scores, dim=1, descending=True) on one row.  PyTorch
leaves the order of tied scores unspecified (no stable flag is passed);
the embedding fixes the tie order to the stable one (lower original index
first), which is the policy the spec declares and what the CPU kernel
produces on these inputs. -/
def argsortRowDesc (row : List ℚ) : List ℕ :=
  List.insertionSort (rankLe row) (List.range row.length)

/-- torch.argsort(scores, dim=1, descending=True). -/
def argsortDesc (S : Mat) : List (List ℕ) := S.map argsortRowDesc

/-- Length of a Python slice `r[:m]` of a row of width w (negative m counts
from the end, out-of-range m clamps). -/
def pySliceTo (m : ℤ) (w : ℕ) : ℕ :=
  if m < 0 then ((w : ℤ) + m).toNat else min m.toNat w

/-- Slicing `t[:, :m]`: keep only the first m columns of every row. -/
def sliceCols (m : ℤ) (rows : List (List α)) : List (List α) :=
  rows.map (fun r => r.take (pySliceTo m r.length))

/-- One row of torch.gather(input, index, dim=1): each index must be in
range for the input row, otherwise a runtime error is raised. -/
def gatherRow (a : List ℚ) (ir : List ℕ) : Except String (List ℚ) :=
  mapME (fun j => if j < a.length then .ok (a.getD j 0)
                  else .error "gather(): index out of range") ir

/-- torch.gather(input, index, dim=1): the index tensor may have at most
as many rows as the input (extra input rows are silently ignored). -/
def gatherRows : Mat → List (List ℕ) → Except String Mat
  | _, [] => .ok []
  | [], _ :: _ => .error "gather(): index tensor has more rows than input"
  | a :: arows, ir :: irows =>
    match gatherRow a ir with
    | .error e => .error e
    | .ok row =>
      match gatherRows arows irows with
      | .error e => .error e
      | .ok rest => .ok (row :: rest)

theorem gatherRow_ok (a : List ℚ) (ir : List ℕ) (h : ∀ j ∈ ir, j < a.length) :
    gatherRow a ir = .ok (ir.map (fun j => a.getD j 0)) := by
  unfold gatherRow
  exact mapME_ok _ _ _ (fun j hj => by simp [h j hj])

theorem gatherRows_ok : ∀ (A : Mat) (I : List (List ℕ)), A.length = I.length →
    (∀ (a : List ℚ) (ir : List ℕ), (a, ir) ∈ A.zip I → ∀ j ∈ ir, j < a.length) →
    gatherRows A I = .ok (List.zipWith (fun a ir => ir.map (fun j => a.getD j 0)) A I) := by
  intro A
  induction A with
  | nil =>
    intro I hlen _
    cases I with
    | nil => rfl
    | cons ir irows => simp at hlen
  | cons a arows ih =>
    intro I hlen hb
    cases I with
    | nil => simp at hlen
    | cons ir irows =>
      have hhead : ∀ j ∈ ir, j < a.length := by
        intro j hj
        exact hb a ir (by simp [List.zip_cons_cons]) j hj
      have htail := ih irows (by simpa using hlen)
        (fun x y hxy => hb x y (by simp [List.zip_cons_cons]; exact Or.inr hxy))
      simp [gatherRows, gatherRow_ok a ir hhead, htail]

/-- Python indexing into dimension 1 of width w: negative indices count
from the end; out of range raises. -/
def pyIndex (w : ℕ) (j : ℤ) : Option ℕ :=
  if 0 ≤ j ∧ j < (w : ℤ) then some j.toNat
  else if -(w : ℤ) ≤ j ∧ j < 0 then some (j + (w : ℤ)).toNat
  else none

/-- Column selection `t[:, j]` for a possibly negative Python index j. -/
def colSelect (rows : List (List α)) (j : ℤ) (d : α) : Except String (List α) :=
  match pyIndex (matWidth rows) j with
  | some k => .ok (rows.map (fun r => r.getD k d))
  | none => .error "index out of bounds for dimension 1"

/-- Python max() over the requested sizes; raises on an empty sequence. -/
def maxSizes : List ℤ → Except String ℤ
  | [] => .error "max() arg is an empty sequence"
  | x :: xs => .ok (xs.foldl max x)

theorem foldl_max_le (xs : List ℤ) : ∀ a : ℤ,
    a ≤ xs.foldl max a ∧ ∀ s ∈ xs, s ≤ xs.foldl max a := by
  induction xs with
  | nil => intro a; exact ⟨le_refl a, by intro s hs; cases hs⟩
  | cons x xs ih =>
    intro a
    obtain ⟨h1, h2⟩ := ih (max a x)
    refine ⟨le_trans (le_max_left a x) h1, ?_⟩
    intro s hs
    rcases List.mem_cons.mp hs with hsx | hmem
    · rw [hsx]
      exact le_trans (le_max_right a x) h1
    · exact h2 s hmem

theorem maxSizes_spec (sizes : List ℤ) (m : ℤ) (h : maxSizes sizes = .ok m) :
    (∀ s ∈ sizes, s ≤ m) ∧ m ∈ sizes := by
  cases sizes with
  | nil => simp [maxSizes] at h
  | cons x xs =>
    have hm : m = xs.foldl max x := by
      simpa [maxSizes] using h.symm
    subst hm
    constructor
    · intro s hs
      rcases List.mem_cons.mp hs with hsx | hmem
      · rw [hsx]; exact (foldl_max_le xs x).1
      · exact (foldl_max_le xs x).2 s hmem
    · have : ∀ (xs : List ℤ) (a : ℤ), xs.foldl max a = a ∨ xs.foldl max a ∈ xs := by
        intro xs
        induction xs with
        | nil => intro a; exact Or.inl rfl
        | cons y ys ih =>
          intro a
          rcases ih (max a y) with h1 | h1
          · rcases max_choice a y with hc | hc <;> rw [List.foldl_cons, h1, hc]
            · exact Or.inl rfl
            · exact Or.inr (List.mem_cons_self y ys)
          · exact Or.inr (List.mem_cons_of_mem y h1)
      rcases this xs x with h1 | h1
      · rw [h1]; exact List.mem_cons_self x xs
      · exact List.mem_cons_of_mem x h1

/-- The division `cumsum / num_rel` with NumPy/torch row broadcasting: equal numbers of
rows divide elementwise; a single row on either side broadcasts; anything
else raises. -/
def broadcastDivRows (cs : Mat) (nr : List ℚ) : Except String (List (List TVal)) :=
  if cs.length = nr.length then
    .ok (List.zipWith (fun row d => row.map (fun q => divQ q d)) cs nr)
  else if cs.length = 1 then
    .ok (nr.map (fun d => (cs.headD []).map (fun q => divQ q d)))
  else if nr.length = 1 then
    .ok (cs.map (fun row => row.map (fun q => divQ q (nr.headD 0))))
  else .error "The size of tensor a must match the size of tensor b at dimension 0"

/-- Column c of a matrix (`y_true.take([c], axis=1).ravel()`). -/
def columnOf (A : Mat) (c : ℕ) : List ℚ := A.map (fun r => r.getD c 0)

/-- precision_at(annotations, scores, sizes) from xib/ignite/metrics.py:
argsort the scores descending, keep the top max(sizes) columns, gather the
annotations, cumulative-sum them, and for each requested size s report the
batch mean of `cumsum[:, s - 1] / s`. -/
def precision_at (annotations scores : Mat) (sizes : List ℤ) :
    Except String (List (ℤ × TVal)) :=
  match maxSizes sizes with
  | .error e => .error e
  | .ok m =>
    match gatherRows annotations (sliceCols m (argsortDesc scores)) with
    | .error e => .error e
    | .ok ann_top =>
      mapME (fun s =>
        match colSelect (ann_top.map cumsumRow) (s - 1) 0 with
        | .error e => .error e
        | .ok col => .ok (s, tmean (col.map (fun q => divQZ q s)))) sizes

/-- The per-sample recall matrix built inside recall_at: the gathered,
cumulative-summed annotations divided (with broadcasting) by the
per-sample count of relevant classes `annotations.sum(dim=1)`. -/
def recallPerSample (annotations scores : Mat) (sizes : List ℤ) :
    Except String (List (List TVal)) :=
  match maxSizes sizes with
  | .error e => .error e
  | .ok m =>
    match gatherRows annotations (sliceCols m (argsortDesc scores)) with
    | .error e => .error e
    | .ok ann_top =>
      broadcastDivRows (ann_top.map cumsumRow) (annotations.map List.sum)

/-- recall_at(annotations, scores, sizes) from xib/ignite/metrics.py:
like precision_at but dividing by the number of relevant classes of each
sample, then taking the batch mean of `recall[:, s - 1]`. -/
def recall_at (annotations scores : Mat) (sizes : List ℤ) :
    Except String (List (ℤ × TVal)) :=
  match recallPerSample annotations scores sizes with
  | .error e => .error e
  | .ok recallRows =>
    mapME (fun s =>
      match colSelect recallRows (s - 1) TVal.nan with
      | .error e => .error e
      | .ok col => .ok (s, tmean col)) sizes

/-- Comparison used by np.argsort(kind="mergesort") (stable ascending). -/
def npAscLe (ys : List ℚ) (i j : ℕ) : Prop :=
  ys.getD i 0 < ys.getD j 0 ∨ (ys.getD i 0 = ys.getD j 0 ∧ i ≤ j)

instance npAscLeDecidable (ys : List ℚ) : DecidableRel (npAscLe ys) :=
  fun i j => by unfold npAscLe; infer_instance

/-- The index order `np.argsort(y_score, kind="mergesort")[::-1]` from sklearn's
_binary_clf_curve: stable ascending argsort, then reversed. -/
def descSortIndicesNp (ys : List ℚ) : List ℕ :=
  (List.insertionSort (npAscLe ys) (List.range ys.length)).reverse

/-- np.searchsorted(a, v, side="left") on a sorted list: the first index
whose entry is at least v (the list length if there is none). -/
def searchsortedLeft (a : List ℚ) (v : ℚ) : ℕ :=
  a.findIdx (fun x => decide (v ≤ x))

/-- The Python slice `l[i::-1]`: the first i+1 entries, reversed. -/
def revSliceFrom (l : List α) (i : ℕ) : List α := (l.take (i + 1)).reverse

/-- The threshold indices of sklearn's _binary_clf_curve: positions where
the sorted score changes, plus the final position. -/
def thresholdIdxsOf (ysorted : List ℚ) : List ℕ :=
  ((List.range (ysorted.length - 1)).filter
    (fun j => decide (ysorted.getD j 0 ≠ ysorted.getD (j + 1) 0))) ++
    [ysorted.length - 1]

/-- The integral `-np.sum(np.diff(recall) * precision[:-1])` over the already reversed
and end-padded recall and precision step curves. -/
def apSum (recS precS : List TVal) : TVal :=
  TVal.neg (tsum ((List.range (recS.length - 1)).map (fun j =>
    TVal.mul (TVal.sub (recS.getD (j + 1) TVal.nan) (recS.getD j TVal.nan))
      (precS.getD j TVal.nan))))

/-- The tail of sklearn's precision_recall_curve + average precision, from
the threshold indices and the true-positive counts at those thresholds:
precision = tps/(tps+fps), recall = tps/tps[-1] (NaN when tps[-1] = 0),
curves reversed from the searchsorted cut and end-padded with (1, 0). -/
def apFromCurve (tidx : List ℕ) (tps : List ℚ) : TVal :=
  let fps := List.zipWith (fun (i : ℕ) (t : ℚ) => (1 + (i : ℚ)) - t) tidx tps
  let precisionL := List.zipWith (fun t f => divQ t (t + f)) tps fps
  let lastTps := (tps.getLast?).getD 0
  let recallL := tps.map (fun t => divQ t lastTps)
  let lastInd := searchsortedLeft tps lastTps
  apSum (revSliceFrom recallL lastInd ++ [TVal.num 0])
    (revSliceFrom precisionL lastInd ++ [TVal.num 1])

/-- sklearn _binary_uninterpolated_average_precision on one class column:
stable descending sort of the scores, cumulative true positives at the
distinct-score thresholds, then the step-function integral of the
precision-recall curve.  The recall values divide by tps[-1] and so are
NaN throughout when the column has no positive sample (the caller
suppresses the invalid-division warning). -/
def averagePrecisionCol (ytrue yscore : List ℚ) : TVal :=
  let perm := descSortIndicesNp yscore
  let tidx := thresholdIdxsOf (perm.map (fun i => yscore.getD i 0))
  let cs := cumsumRow (perm.map (fun i => ytrue.getD i 0))
  apFromCurve tidx (tidx.map (fun j => cs.getD j 0))

/-- mean_average_precision(annotations, scores) from xib/ignite/metrics.py:
sklearn.metrics.average_precision_score with average=None (per-class APs,
after sklearn's consistency checks), then np.nanmean over the classes.
sklearn iterates over the score matrix's columns and raves each taken
annotation column, so extra annotation columns are silently ignored while
missing ones raise an indexing error. -/
def mean_average_precision (annotations scores : Mat) : Except String TVal :=
  if annotations.length ≠ scores.length then
    .error "Found input variables with inconsistent numbers of samples"
  else if ¬ (isRectB annotations ∧ isRectB scores) then
    .error "setting an array element with a sequence"
  else if ¬ binaryB annotations then
    .error "multiclass-multioutput format is not supported"
  else
    match mapME (fun c =>
        if c < matWidth annotations then
          .ok (averagePrecisionCol (columnOf annotations c) (columnOf scores c))
        else .error "cannot do a non-empty take from an empty axes")
        (List.range (matWidth scores)) with
    | .error e => .error e
    | .ok aps => .ok (nanmean aps)

/-- torch.cat(tensors, dim=0): raises on an empty list, requires equal
numbers of columns, concatenates the rows. -/
def torchCat (ms : List Mat) : Except String Mat :=
  match ms with
  | [] => .error "expected a non-empty list of Tensors"
  | m :: rest =>
    if rest.all (fun x => matWidth x == matWidth m) then .ok (List.flatten (m :: rest))
    else .error "Sizes of tensors must match except in dimension 0"

namespace MeanAveragePrecisionBatch

/-- reset(): `self.avg_precision = float("NaN")` — the whole state is the
avg_precision field. -/
def reset : TVal := TVal.nan

/-- update(output): recompute mean_average_precision from this batch only,
overwriting the state. -/
def update (_st : TVal) (output : Mat × Mat) : Except String TVal :=
  mean_average_precision output.1 output.2

/-- compute(): return the current avg_precision; it is total and never
raises. -/
def compute (st : TVal) : TVal := st

end MeanAveragePrecisionBatch

/-- State of MeanAveragePrecisionEpoch: the two accumulator buffers. -/
structure MAPEpochState where
  y_true : List Mat
  y_score : List Mat
deriving DecidableEq

namespace MeanAveragePrecisionEpoch

/-- reset(): clear both accumulator buffers. -/
def reset : MAPEpochState := ⟨[], []⟩

/-- update(output): append the batch pair to the buffers. -/
def update (st : MAPEpochState) (output : Mat × Mat) : MAPEpochState :=
  ⟨st.y_true ++ [output.1], st.y_score ++ [output.2]⟩

/-- compute(): torch.cat both buffers, then one call of the pure function. -/
def compute (st : MAPEpochState) : Except String TVal :=
  match torchCat st.y_true with
  | .error e => .error e
  | .ok yt =>
    match torchCat st.y_score with
    | .error e => .error e
    | .ok ys => mean_average_precision yt ys

end MeanAveragePrecisionEpoch

/-- State of RecallAtBatch: the sorted sizes fixed at construction and the
_recall_at dict (None until the first update). -/
structure RecallAtBatchState where
  sorted_sizes : List ℤ
  recall_map : List (ℤ × Option TVal)
deriving DecidableEq

namespace RecallAtBatch

/-- Construction: sizes are sorted ascending, then ignite's Metric base
calls reset(), filling the dict with None values. -/
def init (sizes : List ℤ) : RecallAtBatchState :=
  let ss := List.insertionSort (· ≤ ·) sizes
  ⟨ss, ss.map (fun s => (s, none))⟩

/-- reset(): `self._recall_at = {s: None for s in self._sorted_sizes}`. -/
def reset (st : RecallAtBatchState) : RecallAtBatchState :=
  ⟨st.sorted_sizes, st.sorted_sizes.map (fun s => (s, none))⟩

/-- update(output): `self._recall_at.update(recall_at(...))` — the dict
keys are exactly the sorted sizes, so every entry is overwritten. -/
def update (st : RecallAtBatchState) (output : Mat × Mat) :
    Except String RecallAtBatchState :=
  match recall_at output.1 output.2 st.sorted_sizes with
  | .error e => .error e
  | .ok r => .ok ⟨st.sorted_sizes, r.map (fun p => (p.1, some p.2))⟩

/-- compute(): return the dict as is; it is total and never raises. -/
def compute (st : RecallAtBatchState) : List (ℤ × Option TVal) := st.recall_map

end RecallAtBatch

/-- State of RecallAtEpoch: the sorted sizes and the accumulator buffers. -/
structure RecallAtEpochState where
  sorted_sizes : List ℤ
  y_true : List Mat
  y_score : List Mat
deriving DecidableEq

namespace RecallAtEpoch

/-- Construction: sizes sorted ascending, buffers empty (reset() is called
by the Metric base constructor). -/
def init (sizes : List ℤ) : RecallAtEpochState :=
  ⟨List.insertionSort (· ≤ ·) sizes, [], []⟩

/-- reset(): clear both accumulator buffers. -/
def reset (st : RecallAtEpochState) : RecallAtEpochState :=
  ⟨st.sorted_sizes, [], []⟩

/-- update(output): append the batch pair to the buffers. -/
def update (st : RecallAtEpochState) (output : Mat × Mat) : RecallAtEpochState :=
  ⟨st.sorted_sizes, st.y_true ++ [output.1], st.y_score ++ [output.2]⟩

/-- compute(): torch.cat both buffers, then one call of the pure function. -/
def compute (st : RecallAtEpochState) : Except String (List (ℤ × TVal)) :=
  match torchCat st.y_true with
  | .error e => .error e
  | .ok yt =>
    match torchCat st.y_score with
    | .error e => .error e
    | .ok ys => recall_at yt ys st.sorted_sizes

end RecallAtEpoch

/-- The two ignite events BatchMetric.attach registers against. -/
inductive EngineEvent where
  | iteration_started
  | iteration_completed
deriving DecidableEq

/-- The three callbacks of one metric instance: self.started,
self.iteration_completed (runs update), and self.completed bound with the
registered name (publishes compute() into engine.state.metrics). -/
inductive Handler where
  | started
  | iterationCompletedUpdate
  | completedPublish (name : String)
deriving DecidableEq

/-- The event-handler table of an ignite Engine, in registration order. -/
structure Engine where
  handlers : List (EngineEvent × Handler)
deriving DecidableEq

/-- Engine.has_event_handler(handler, event). -/
def Engine.has_event_handler (e : Engine) (h : Handler) (ev : EngineEvent) : Bool :=
  e.handlers.contains (ev, h)

/-- Engine.add_event_handler(event, handler): appends unconditionally. -/
def Engine.add_event_handler (e : Engine) (ev : EngineEvent) (h : Handler) : Engine :=
  ⟨e.handlers ++ [(ev, h)]⟩

/-- How many times a given callback is registered for a given event. -/
def Engine.handlerCount (e : Engine) (ev : EngineEvent) (h : Handler) : ℕ :=
  e.handlers.count (ev, h)

namespace BatchMetric

/-- BatchMetric.attach(engine, name) from xib/ignite/metrics.py: the reset
and update registrations are guarded by has_event_handler; the publish
registration (self.completed with the metric name) is not. -/
def attach (e : Engine) (name : String) : Engine :=
  let e1 := if e.has_event_handler Handler.started EngineEvent.iteration_started then e
            else e.add_event_handler EngineEvent.iteration_started Handler.started
  let e2 := if e1.has_event_handler Handler.iterationCompletedUpdate
                EngineEvent.iteration_completed then e1
            else e1.add_event_handler EngineEvent.iteration_completed
                Handler.iterationCompletedUpdate
  e2.add_event_handler EngineEvent.iteration_completed (Handler.completedPublish name)

end BatchMetric

theorem has_event_handler_iff (e : Engine) (h : Handler) (ev : EngineEvent) :
    e.has_event_handler h ev = true ↔ (ev, h) ∈ e.handlers := by
  simp [Engine.has_event_handler, List.elem_iff, List.contains]

theorem mem_handlers_attach (e : Engine) (name : String) (p : EngineEvent × Handler)
    (hp : p ∈ e.handlers) : p ∈ (BatchMetric.attach e name).handlers := by
  unfold BatchMetric.attach
  dsimp only
  split <;> split <;>
    simp_all [Engine.add_event_handler, List.mem_append]

theorem attach_has_started (e : Engine) (name : String) :
    (BatchMetric.attach e name).has_event_handler Handler.started
      EngineEvent.iteration_started = true := by
  rw [has_event_handler_iff]
  unfold BatchMetric.attach
  dsimp only
  split <;> split <;>
    simp_all [Engine.has_event_handler, List.elem_iff, List.contains,
      Engine.add_event_handler, List.mem_append]

theorem attach_has_update (e : Engine) (name : String) :
    (BatchMetric.attach e name).has_event_handler Handler.iterationCompletedUpdate
      EngineEvent.iteration_completed = true := by
  rw [has_event_handler_iff]
  unfold BatchMetric.attach
  dsimp only
  split <;> split <;>
    simp_all [Engine.has_event_handler, List.elem_iff, List.contains,
      Engine.add_event_handler, List.mem_append]

theorem attach_of_has (E : Engine) (name : String)
    (h1 : E.has_event_handler Handler.started EngineEvent.iteration_started = true)
    (h2 : E.has_event_handler Handler.iterationCompletedUpdate
        EngineEvent.iteration_completed = true) :
    BatchMetric.attach E name
      = E.add_event_handler EngineEvent.iteration_completed
          (Handler.completedPublish name) := by
  unfold BatchMetric.attach
  simp [h1, h2]

/-- Claim C8 (counterexample): attaching the same metric instance twice to
a fresh engine under the same name leaves the publish callback registered
twice, not exactly once; only the reset and update callbacks are guarded. -/
theorem attach_not_idempotent_for_publish :
    (BatchMetric.attach (BatchMetric.attach ⟨[]⟩ "recall") "recall").handlerCount
        EngineEvent.iteration_completed (Handler.completedPublish "recall") = 2 ∧
    ((BatchMetric.attach (BatchMetric.attach ⟨[]⟩ "recall") "recall").handlerCount
        EngineEvent.iteration_completed (Handler.completedPublish "recall") ≠ 1) := by
  decide

/-- Claim C8 (amended): attach is idempotent for the reset and update
callbacks (their registrations are guarded by has_event_handler), but each
further attach of the same instance under the same name appends exactly
one more publish (completed) registration. -/
theorem attach_twice_adds_only_publish (e : Engine) (name : String) :
    BatchMetric.attach (BatchMetric.attach e name) name
      = Engine.mk ((BatchMetric.attach e name).handlers
          ++ [(EngineEvent.iteration_completed, Handler.completedPublish name)]) :=
  attach_of_has (BatchMetric.attach e name) name (attach_has_started e name)
    (attach_has_update e name)

/-- Claim C8 (witness): the amended statement at a concrete engine. -/
theorem attach_twice_adds_only_publish_witness :
    BatchMetric.attach (BatchMetric.attach ⟨[]⟩ "m") "m"
      = Engine.mk ((BatchMetric.attach ⟨[]⟩ "m").handlers
          ++ [(EngineEvent.iteration_completed, Handler.completedPublish "m")]) :=
  attach_twice_adds_only_publish ⟨[]⟩ "m"

/-- Claim C2 (counterexample): in the reset state, compute() of the
batch-scoped metrics returns a sentinel value (NaN for mAP, a dict of None
values for Recall@k) instead of raising an explicit error; both compute
functions are total. -/
theorem premature_compute_returns_sentinel :
    MeanAveragePrecisionBatch.compute MeanAveragePrecisionBatch.reset = TVal.nan ∧
    RecallAtBatch.compute (RecallAtBatch.init [10, 30, 50])
      = [(10, none), (30, none), (50, none)] := by
  decide

/-- Claim C2 (amended): only the epoch-scoped metrics fail on a premature
compute() (torch.cat raises on the empty accumulator); the batch-scoped
metrics in the reset state return their sentinel (NaN, resp. a map of
None values) without raising. -/
theorem premature_compute_behavior :
    MeanAveragePrecisionBatch.compute MeanAveragePrecisionBatch.reset = TVal.nan ∧
    (∀ sizes : List ℤ,
      RecallAtBatch.compute (RecallAtBatch.reset (RecallAtBatch.init sizes))
        = (List.insertionSort (· ≤ ·) sizes).map (fun s => (s, none))) ∧
    (∃ msg, MeanAveragePrecisionEpoch.compute MeanAveragePrecisionEpoch.reset
        = .error msg) ∧
    (∀ sizes : List ℤ, ∃ msg,
      RecallAtEpoch.compute (RecallAtEpoch.reset (RecallAtEpoch.init sizes))
        = .error msg) :=
  ⟨rfl, fun _ => rfl, ⟨_, rfl⟩, fun _ => ⟨_, rfl⟩⟩

theorem foldl_update_mapEpoch (batches : List (Mat × Mat)) : ∀ st : MAPEpochState,
    batches.foldl MeanAveragePrecisionEpoch.update st
      = ⟨st.y_true ++ batches.map Prod.fst, st.y_score ++ batches.map Prod.snd⟩ := by
  induction batches with
  | nil => intro st; cases st; simp
  | cons b bs ih =>
    intro st
    simp [MeanAveragePrecisionEpoch.update, ih]

theorem foldl_update_recallEpoch (batches : List (Mat × Mat)) :
    ∀ st : RecallAtEpochState,
    batches.foldl RecallAtEpoch.update st
      = ⟨st.sorted_sizes, st.y_true ++ batches.map Prod.fst,
          st.y_score ++ batches.map Prod.snd⟩ := by
  induction batches with
  | nil => intro st; cases st; simp
  | cons b bs ih =>
    intro st
    simp [RecallAtEpoch.update, ih]

theorem torchCat_ok (ms : List Mat) (hne : ms ≠ [])
    (hw : ∀ x ∈ ms, matWidth x = matWidth (ms.headD [])) :
    torchCat ms = .ok ms.flatten := by
  cases ms with
  | nil => exact absurd rfl hne
  | cons m rest =>
    have hall : rest.all (fun x => matWidth x == matWidth m) = true := by
      rw [List.all_eq_true]
      intro x hx
      simpa using hw x (List.mem_cons_of_mem m hx)
    simp [torchCat, hall]

/-- Claim C3: for every non-empty sequence of batches with matching class
dimensions, updating an epoch-scoped metric on each batch in order and
then computing returns exactly the value of the corresponding pure
function applied once to the row-wise concatenation of the batches. -/
theorem epoch_compute_eq_pure_on_concat (batches : List (Mat × Mat)) (sizes : List ℤ)
    (hne : batches ≠ [])
    (hwA : ∀ b ∈ batches, matWidth b.1 = matWidth ((batches.headD ([], [])).1))
    (hwS : ∀ b ∈ batches, matWidth b.2 = matWidth ((batches.headD ([], [])).2)) :
    MeanAveragePrecisionEpoch.compute
        (batches.foldl MeanAveragePrecisionEpoch.update MeanAveragePrecisionEpoch.reset)
      = mean_average_precision (batches.map Prod.fst).flatten
          (batches.map Prod.snd).flatten ∧
    RecallAtEpoch.compute (batches.foldl RecallAtEpoch.update (RecallAtEpoch.init sizes))
      = recall_at (batches.map Prod.fst).flatten (batches.map Prod.snd).flatten
          (List.insertionSort (· ≤ ·) sizes) := by
  cases batches with
  | nil => exact absurd rfl hne
  | cons b0 bs =>
    have hcatA : torchCat ((b0 :: bs).map Prod.fst)
        = .ok ((b0 :: bs).map Prod.fst).flatten := by
      apply torchCat_ok _ (by simp)
      intro x hx
      obtain ⟨b, hb, hbx⟩ := List.mem_map.mp hx
      rw [← hbx]
      simpa using hwA b hb
    have hcatS : torchCat ((b0 :: bs).map Prod.snd)
        = .ok ((b0 :: bs).map Prod.snd).flatten := by
      apply torchCat_ok _ (by simp)
      intro x hx
      obtain ⟨b, hb, hbx⟩ := List.mem_map.mp hx
      rw [← hbx]
      simpa using hwS b hb
    constructor
    · rw [foldl_update_mapEpoch]
      simp only [MeanAveragePrecisionEpoch.reset, MeanAveragePrecisionEpoch.compute,
        List.nil_append]
      rw [hcatA, hcatS]
    · rw [foldl_update_recallEpoch]
      simp only [RecallAtEpoch.init, RecallAtEpoch.compute, List.nil_append]
      rw [hcatA, hcatS]

@[simp] theorem length_argsortRowDesc (row : List ℚ) :
    (argsortRowDesc row).length = row.length := by
  unfold argsortRowDesc
  rw [(List.perm_insertionSort _ _).length_eq, List.length_range]

theorem mem_argsortRowDesc (row : List ℚ) (j : ℕ) :
    j ∈ argsortRowDesc row ↔ j < row.length := by
  unfold argsortRowDesc
  rw [(List.perm_insertionSort _ _).mem_iff, List.mem_range]

theorem rect_mem_length {rows : List (List α)} (hr : isRectB rows = true)
    {r : List α} (hmem : r ∈ rows) : r.length = matWidth rows := by
  rw [isRectB, List.all_eq_true] at hr
  simpa using hr r hmem

theorem pySliceTo_le (m : ℤ) (w : ℕ) : pySliceTo m w ≤ w := by
  unfold pySliceTo
  split <;> omega

theorem pySliceTo_of_le (m : ℤ) (w : ℕ) (h0 : 0 ≤ m) (h : m ≤ (w : ℤ)) :
    pySliceTo m w = m.toNat := by
  unfold pySliceTo
  split
  · omega
  · omega

theorem getD_map (f : α → β) (l : List α) (d1 : α) (d : β) (i : ℕ)
    (hi : i < l.length) : (l.map f).getD i d = f (l.getD i d1) := by
  induction l generalizing i with
  | nil => simp at hi
  | cons x xs ih =>
    cases i with
    | zero => simp
    | succ k => simpa using ih k (by simpa using hi)

theorem getD_zipWith (f : α → β → γ) (l1 : List α) (l2 : List β) (d1 : α) (d2 : β)
    (d : γ) (i : ℕ) (h1 : i < l1.length) (h2 : i < l2.length) :
    (List.zipWith f l1 l2).getD i d = f (l1.getD i d1) (l2.getD i d2) := by
  induction l1 generalizing l2 i with
  | nil => simp at h1
  | cons x xs ih =>
    cases l2 with
    | nil => simp at h2
    | cons y ys =>
      cases i with
      | zero => simp
      | succ k =>
        simpa using ih ys k (by simpa using h1) (by simpa using h2)

theorem mem_zipWith {f : α → β → γ} : ∀ {l1 : List α} {l2 : List β} {v : γ},
    v ∈ List.zipWith f l1 l2 → ∃ a b, a ∈ l1 ∧ b ∈ l2 ∧ v = f a b := by
  intro l1
  induction l1 with
  | nil => intro l2 v h; simp at h
  | cons x xs ih =>
    intro l2 v h
    cases l2 with
    | nil => simp at h
    | cons y ys =>
      rcases List.mem_cons.mp h with hv | hv
      · exact ⟨x, y, List.mem_cons_self x xs, List.mem_cons_self y ys, hv⟩
      · obtain ⟨a, b, ha, hb, hab⟩ := ih hv
        exact ⟨a, b, List.mem_cons_of_mem x ha, List.mem_cons_of_mem y hb, hab⟩

/-- One row of the gathered top-max(sizes) annotations: the annotation
entries of row a picked in the rank order of the matching score row
(abbreviation used to state the pipeline lemmas). -/
def gatheredRow (a srow : List ℚ) (m : ℤ) : List ℚ :=
  ((argsortRowDesc srow).take (pySliceTo m srow.length)).map (fun j => a.getD j 0)

@[simp] theorem length_gatheredRow (a srow : List ℚ) (m : ℤ) :
    (gatheredRow a srow m).length = pySliceTo m srow.length := by
  unfold gatheredRow
  rw [List.length_map, List.length_take, length_argsortRowDesc]
  exact min_eq_left (pySliceTo_le m srow.length)

/-- The argsort-gather part shared by precision_at and recall_at, in the
shape-compatible case: it succeeds and produces the rowwise gatheredRow
pairing of the two inputs. -/
theorem gather_pipeline (A S : Mat) (m : ℤ) (hlen : A.length = S.length)
    (hrA : isRectB A = true) (hrS : isRectB S = true)
    (hw : matWidth A = matWidth S) :
    gatherRows A (sliceCols m (argsortDesc S))
      = .ok (List.zipWith (fun a srow => gatheredRow a srow m) A S) := by
  have hslice : sliceCols m (argsortDesc S)
      = S.map (fun srow => (argsortRowDesc srow).take (pySliceTo m srow.length)) := by
    simp [sliceCols, argsortDesc, List.map_map, Function.comp_def, length_argsortRowDesc]
  rw [hslice]
  rw [gatherRows_ok _ _ (by simpa using hlen)]
  · rw [List.zipWith_map_right]
    rfl
  · intro a ir hmem j hj
    obtain ⟨ha, hir⟩ := List.of_mem_zip hmem
    obtain ⟨srow, hs, hfs⟩ := List.mem_map.mp hir
    rw [← hfs] at hj
    have hjs : j ∈ argsortRowDesc srow := List.take_subset _ _ hj
    have hjlt : j < srow.length := (mem_argsortRowDesc _ _).mp hjs
    have hlen_a : a.length = matWidth A := rect_mem_length hrA ha
    have hlen_s : srow.length = matWidth S := rect_mem_length hrS hs
    omega

theorem pyIndex_pos (w : ℕ) (s : ℤ) (h1 : 1 ≤ s) (h2 : s ≤ (w : ℤ)) :
    pyIndex w (s - 1) = some (s - 1).toNat := by
  unfold pyIndex
  have hc : 0 ≤ s - 1 ∧ s - 1 < (w : ℤ) := ⟨by omega, by omega⟩
  simp [hc]

theorem pyIndex_none (w : ℕ) (j : ℤ) (h : (w : ℤ) ≤ j) : pyIndex w j = none := by
  unfold pyIndex
  have h1 : ¬ (0 ≤ j ∧ j < (w : ℤ)) := by omega
  have h2 : ¬ (-(w : ℤ) ≤ j ∧ j < 0) := by omega
  simp [h1, h2]

theorem maxSizes_ok_of_ne (sizes : List ℤ) (h : sizes ≠ []) :
    ∃ m, maxSizes sizes = .ok m := by
  cases sizes with
  | nil => exact absurd rfl h
  | cons x xs => exact ⟨xs.foldl max x, rfl⟩

theorem mem_of_getD (l : List α) (i : ℕ) (d : α) (hi : i < l.length) : l.getD i d ∈ l := by
  induction l generalizing i with
  | nil => simp at hi
  | cons x xs ih =>
    cases i with
    | zero => simp
    | succ k =>
      simp only [List.getD_cons_succ]
      exact List.mem_cons_of_mem x (ih k (by simpa using hi))

theorem getD_of_all_eq (l : List ℚ) (c : ℚ) (h : ∀ x ∈ l, x = c) (i : ℕ)
    (hi : i < l.length) : l.getD i 0 = c :=
  h _ (mem_of_getD l i 0 hi)

theorem getD_binary (a : List ℚ) (h : ∀ x ∈ a, x = 0 ∨ x = 1) (j : ℕ) :
    a.getD j 0 = 0 ∨ a.getD j 0 = 1 := by
  by_cases hj : j < a.length
  · exact h _ (mem_of_getD a j 0 hj)
  · left
    rw [List.getD_eq_default]
    omega

theorem getD_zero_of_all_zero (a : List ℚ) (h : ∀ x ∈ a, x = 0) (j : ℕ) :
    a.getD j 0 = 0 := by
  by_cases hj : j < a.length
  · exact h _ (mem_of_getD a j 0 hj)
  · rw [List.getD_eq_default]
    omega

theorem sum_bounds_of_binary (l : List ℚ) (h : ∀ x ∈ l, x = 0 ∨ x = 1) :
    0 ≤ l.sum ∧ l.sum ≤ (l.length : ℚ) := by
  induction l with
  | nil => simp
  | cons x xs ih =>
    obtain ⟨h0, h1⟩ := ih (fun y hy => h y (List.mem_cons_of_mem x hy))
    have hcast : ((x :: xs).length : ℚ) = (xs.length : ℚ) + 1 := by
      push_cast [List.length_cons]; ring
    rcases h x (List.mem_cons_self x xs) with hx | hx <;>
      (subst hx; rw [List.sum_cons, hcast]; constructor <;> linarith)

theorem sum_take_mono (l : List ℚ) (h : ∀ x ∈ l, 0 ≤ x) : ∀ (n1 n2 : ℕ), n1 ≤ n2 →
    (l.take n1).sum ≤ (l.take n2).sum := by
  induction l with
  | nil => intro n1 n2 _; simp
  | cons x xs ih =>
    intro n1 n2 h12
    cases n1 with
    | zero =>
      simp only [List.take_zero, List.sum_nil]
      apply List.sum_nonneg
      intro y hy
      exact h y (List.take_subset n2 (x :: xs) hy)
    | succ k1 =>
      cases n2 with
      | zero => omega
      | succ k2 =>
        simp only [List.take_succ_cons, List.sum_cons]
        have := ih (fun y hy => h y (List.mem_cons_of_mem x hy)) k1 k2 (by omega)
        linarith

theorem foldl_add_num_bounds : ∀ (l : List TVal) (a : ℚ),
    (∀ v ∈ l, ∃ q : ℚ, v = TVal.num q ∧ 0 ≤ q ∧ q ≤ 1) →
    ∃ q : ℚ, l.foldl TVal.add (TVal.num a) = TVal.num (a + q) ∧ 0 ≤ q ∧
      q ≤ (l.length : ℚ) := by
  intro l
  induction l with
  | nil => intro a _; exact ⟨0, by simp⟩
  | cons x xs ih =>
    intro a h
    obtain ⟨qx, hqx, hx0, hx1⟩ := h x (List.mem_cons_self x xs)
    obtain ⟨q, hq, h0, h1⟩ := ih (a + qx) (fun v hv => h v (List.mem_cons_of_mem x hv))
    refine ⟨qx + q, ?_, by linarith, ?_⟩
    · rw [List.foldl_cons, hqx, TVal.add_num_num, hq]
      ring_nf
    · have : ((x :: xs).length : ℚ) = (xs.length : ℚ) + 1 := by
        push_cast [List.length_cons]
        ring
      rw [this]
      linarith

theorem tmean_num_bounds (l : List TVal) (hne : l ≠ [])
    (h : ∀ v ∈ l, ∃ q : ℚ, v = TVal.num q ∧ 0 ≤ q ∧ q ≤ 1) :
    ∃ q : ℚ, tmean l = TVal.num q ∧ 0 ≤ q ∧ q ≤ 1 := by
  obtain ⟨q, hq, h0, h1⟩ := foldl_add_num_bounds l 0 h
  have hlen : l.length ≠ 0 := by
    intro h0l
    exact hne (List.length_eq_zero.mp h0l)
  have hlpos : (0 : ℚ) < (l.length : ℚ) := by
    have : 0 < l.length := Nat.pos_of_ne_zero hlen
    exact_mod_cast this
  refine ⟨q / (l.length : ℚ), ?_, ?_, ?_⟩
  · simp only [tmean, hlen, if_false, tsum]
    rw [hq]
    simp [divByNat, hlen]
  · positivity
  · rw [div_le_one hlpos]
    linarith

theorem tmean_all_zero (l : List TVal) (hne : l ≠ []) (h : ∀ v ∈ l, v = TVal.num 0) :
    tmean l = TVal.num 0 := by
  obtain ⟨q, hq, h0, h1⟩ := foldl_add_num_bounds l 0
    (fun v hv => ⟨0, h v hv, le_refl 0, by norm_num⟩)
  have hq0 : ∀ (l : List TVal) (a : ℚ), (∀ v ∈ l, v = TVal.num 0) →
      l.foldl TVal.add (TVal.num a) = TVal.num a := by
    intro l
    induction l with
    | nil => intro a _; rfl
    | cons x xs ih =>
      intro a hall
      rw [List.foldl_cons, hall x (List.mem_cons_self x xs), TVal.add_num_num, add_zero]
      exact ih a (fun v hv => hall v (List.mem_cons_of_mem x hv))
  have hlen : l.length ≠ 0 := fun h0l => hne (List.length_eq_zero.mp h0l)
  simp only [tmean, hlen, if_false, tsum, hq0 l 0 h]
  simp [divByNat, hlen]

theorem zipWith_zipWith_map (g : γ → δ → ε) (f : α → β → γ) (h : α → δ) :
    ∀ (l1 : List α) (l2 : List β),
    List.zipWith g (List.zipWith f l1 l2) (l1.map h)
      = List.zipWith (fun a b => g (f a b) (h a)) l1 l2 := by
  intro l1
  induction l1 with
  | nil => intro l2; rfl
  | cons x xs ih =>
    intro l2
    cases l2 with
    | nil => rfl
    | cons y ys => simpa using ih ys

theorem zipWith_eq_map (f : α → β → γ) (g : α → γ) : ∀ (l1 : List α) (l2 : List β),
    l1.length = l2.length → (∀ a ∈ l1, ∀ b ∈ l2, f a b = g a) →
    List.zipWith f l1 l2 = l1.map g := by
  intro l1
  induction l1 with
  | nil => intro l2 _ _; rfl
  | cons x xs ih =>
    intro l2 hlen h
    cases l2 with
    | nil => simp at hlen
    | cons y ys =>
      simp only [List.zipWith_cons_cons, List.map_cons]
      rw [h x (List.mem_cons_self x xs) y (List.mem_cons_self y ys)]
      rw [ih ys (by simpa using hlen)
        (fun a ha b hb => h a (List.mem_cons_of_mem x ha) b (List.mem_cons_of_mem y hb))]

theorem map_getD_range : ∀ (a : List ℚ) (n : ℕ), n ≤ a.length →
    (List.range n).map (fun j => a.getD j 0) = a.take n := by
  intro a
  induction a with
  | nil =>
    intro n hn
    have : n = 0 := by simpa using hn
    subst this
    simp
  | cons x xs ih =>
    intro n hn
    cases n with
    | zero => simp
    | succ k =>
      rw [List.range_succ_eq_map, List.map_cons, List.map_map]
      simp only [List.getD_cons_zero, Function.comp_def, List.getD_cons_succ,
        List.take_succ_cons]
      rw [ih k (by simpa using hn)]

theorem matWidth_cums (A S : Mat) (m : ℤ) (hA : A ≠ []) (hS : S ≠ []) :
    matWidth (List.zipWith (fun a srow => cumsumRow (gatheredRow a srow m)) A S)
      = pySliceTo m (matWidth S) := by
  cases A with
  | nil => exact absurd rfl hA
  | cons a arows =>
    cases S with
    | nil => exact absurd rfl hS
    | cons srow srows =>
      simp [matWidth, length_gatheredRow]

theorem matWidth_recallRows (A S : Mat) (m : ℤ) (hA : A ≠ []) (hS : S ≠ []) :
    matWidth (List.zipWith (fun a srow =>
        (cumsumRow (gatheredRow a srow m)).map (fun q => divQ q a.sum)) A S)
      = pySliceTo m (matWidth S) := by
  cases A with
  | nil => exact absurd rfl hA
  | cons a arows =>
    cases S with
    | nil => exact absurd rfl hS
    | cons srow srows =>
      simp [matWidth, length_gatheredRow]

theorem le_pySliceTo (s m : ℤ) (C : ℕ) (h1 : 1 ≤ s) (hsm : s ≤ m) (hsC : s ≤ (C : ℤ)) :
    s ≤ (pySliceTo m C : ℤ) := by
  have hm : ¬ m < 0 := by omega
  simp only [pySliceTo, hm, if_false]
  push_cast [Nat.cast_min]
  omega

/-- precision_at in the shape-compatible case with in-range cutoffs: it
succeeds and each requested size s is mapped to the batch mean over
samples of `cumsum[:, s-1] / s`. -/
theorem precision_at_ok (A S : Mat) (sizes : List ℤ) (m : ℤ)
    (hm : maxSizes sizes = .ok m)
    (hlen : A.length = S.length) (hrA : isRectB A = true) (hrS : isRectB S = true)
    (hw : matWidth A = matWidth S) (hA : A ≠ [])
    (hks : ∀ s ∈ sizes, 1 ≤ s ∧ s ≤ (pySliceTo m (matWidth S) : ℤ)) :
    precision_at A S sizes = .ok (sizes.map (fun s =>
      (s, tmean ((List.zipWith (fun a srow => cumsumRow (gatheredRow a srow m)) A S).map
        (fun r => divQZ (r.getD (s - 1).toNat 0) s))))) := by
  have hS : S ≠ [] := by
    intro h
    subst h
    simp only [List.length_nil] at hlen
    exact hA (List.length_eq_zero.mp hlen)
  have hg := gather_pipeline A S m hlen hrA hrS hw
  simp only [precision_at, hm, hg, List.map_zipWith]
  apply mapME_ok
  intro s hs
  obtain ⟨h1, h2⟩ := hks s hs
  have hcol : colSelect
      (List.zipWith (fun a srow => cumsumRow (gatheredRow a srow m)) A S) (s - 1) (0 : ℚ)
      = .ok ((List.zipWith (fun a srow => cumsumRow (gatheredRow a srow m)) A S).map
          (fun r => r.getD (s - 1).toNat 0)) := by
    unfold colSelect
    rw [matWidth_cums A S m hA hS, pyIndex_pos _ s h1 h2]
  rw [hcol]
  simp [List.map_map, List.map_zipWith]

/-- The internal per-sample recall matrix in the shape-compatible case:
row i holds `cumsum(gathered annotations of sample i) / (number of
relevant classes of sample i)`. -/
theorem recallPerSample_ok (A S : Mat) (sizes : List ℤ) (m : ℤ)
    (hm : maxSizes sizes = .ok m) (hlen : A.length = S.length)
    (hrA : isRectB A = true) (hrS : isRectB S = true)
    (hw : matWidth A = matWidth S) :
    recallPerSample A S sizes = .ok (List.zipWith (fun a srow =>
      (cumsumRow (gatheredRow a srow m)).map (fun q => divQ q a.sum)) A S) := by
  have hg := gather_pipeline A S m hlen hrA hrS hw
  simp only [recallPerSample, hm, hg, List.map_zipWith]
  unfold broadcastDivRows
  have hlen2 : (List.zipWith (fun a srow => cumsumRow (gatheredRow a srow m)) A S).length
      = (A.map List.sum).length := by
    simp [List.length_zipWith, hlen]
  rw [if_pos hlen2, zipWith_zipWith_map]

/-- recall_at in the shape-compatible case with in-range cutoffs: it
succeeds and each requested size s is mapped to the batch mean of column
s-1 of the per-sample recall matrix. -/
theorem recall_at_ok (A S : Mat) (sizes : List ℤ) (m : ℤ)
    (hm : maxSizes sizes = .ok m)
    (hlen : A.length = S.length) (hrA : isRectB A = true) (hrS : isRectB S = true)
    (hw : matWidth A = matWidth S) (hA : A ≠ [])
    (hks : ∀ s ∈ sizes, 1 ≤ s ∧ s ≤ (pySliceTo m (matWidth S) : ℤ)) :
    recall_at A S sizes = .ok (sizes.map (fun s =>
      (s, tmean ((List.zipWith (fun a srow =>
          (cumsumRow (gatheredRow a srow m)).map (fun q => divQ q a.sum)) A S).map
        (fun r => r.getD (s - 1).toNat TVal.nan))))) := by
  have hS : S ≠ [] := by
    intro h
    subst h
    simp only [List.length_nil] at hlen
    exact hA (List.length_eq_zero.mp hlen)
  have hps := recallPerSample_ok A S sizes m hm hlen hrA hrS hw
  simp only [recall_at, hps]
  apply mapME_ok
  intro s hs
  obtain ⟨h1, h2⟩ := hks s hs
  have hcol : colSelect (List.zipWith (fun a srow =>
      (cumsumRow (gatheredRow a srow m)).map (fun q => divQ q a.sum)) A S)
      (s - 1) TVal.nan
      = .ok ((List.zipWith (fun a srow =>
          (cumsumRow (gatheredRow a srow m)).map (fun q => divQ q a.sum)) A S).map
          (fun r => r.getD (s - 1).toNat TVal.nan)) := by
    unfold colSelect
    rw [matWidth_recallRows A S m hA hS, pyIndex_pos _ s h1 h2]
  rw [hcol]

theorem binaryB_mem (A : Mat) (hb : binaryB A = true) {a : List ℚ} (ha : a ∈ A) :
    ∀ x ∈ a, x = 0 ∨ x = 1 := by
  rw [binaryB, List.all_eq_true] at hb
  have h2 := hb a ha
  rw [List.all_eq_true] at h2
  intro x hx
  have := h2 x hx
  simpa using this

theorem allZeroB_mem (A : Mat) (hb : allZeroB A = true) {a : List ℚ} (ha : a ∈ A) :
    ∀ x ∈ a, x = 0 := by
  rw [allZeroB, List.all_eq_true] at hb
  have h2 := hb a ha
  rw [List.all_eq_true] at h2
  intro x hx
  have := h2 x hx
  simpa using this

theorem matrices_ne_nil (A S : Mat) (sizes : List ℤ) (hlen : A.length = S.length)
    (hsne : sizes ≠ []) (hks : ∀ s ∈ sizes, 1 ≤ s ∧ s ≤ (matWidth S : ℤ)) :
    A ≠ [] ∧ S ≠ [] := by
  have hS : S ≠ [] := by
    cases sizes with
    | nil => exact absurd rfl hsne
    | cons s0 rest =>
      obtain ⟨h1, h2⟩ := hks s0 (List.mem_cons_self s0 rest)
      intro h
      subst h
      simp [matWidth] at h2
      omega
  refine ⟨?_, hS⟩
  intro h
  subst h
  simp only [List.length_nil] at hlen
  exact hS (List.length_eq_zero.mp hlen.symm)

theorem gatheredRow_binary (a srow : List ℚ) (m : ℤ) (h : ∀ x ∈ a, x = 0 ∨ x = 1) :
    ∀ y ∈ gatheredRow a srow m, y = 0 ∨ y = 1 := by
  intro y hy
  obtain ⟨j, hj, hjy⟩ := List.mem_map.mp hy
  rw [← hjy]
  exact getD_binary a h j

theorem gatheredRow_zero (a srow : List ℚ) (m : ℤ) (h : ∀ x ∈ a, x = 0) :
    ∀ y ∈ gatheredRow a srow m, y = 0 := by
  intro y hy
  obtain ⟨j, hj, hjy⟩ := List.mem_map.mp hy
  rw [← hjy]
  exact getD_zero_of_all_zero a h j

/-- Claim C10: for every binary relevance matrix and score matrix of equal
shape and cutoffs all within [1, C], every value in the map returned by
precision_at is a finite rational in [0, 1] and never NaN; samples whose
relevance row is all zeros contribute precision 0, and if every row is all
zeros every returned value is exactly 0. -/
theorem precision_at_values_in_unit_interval (A S : Mat) (sizes : List ℤ)
    (hrA : isRectB A = true) (hrS : isRectB S = true)
    (hlen : A.length = S.length) (hw : matWidth A = matWidth S)
    (hbin : binaryB A = true) (hsne : sizes ≠ [])
    (hks : ∀ s ∈ sizes, 1 ≤ s ∧ s ≤ (matWidth S : ℤ)) :
    ∃ l, precision_at A S sizes = .ok l ∧
      (∀ p ∈ l, ∃ q : ℚ, p.2 = TVal.num q ∧ 0 ≤ q ∧ q ≤ 1) ∧
      (allZeroB A = true → ∀ p ∈ l, p.2 = TVal.num 0) := by
  obtain ⟨m, hm⟩ := maxSizes_ok_of_ne sizes hsne
  have hspec := maxSizes_spec sizes m hm
  obtain ⟨hA, hS⟩ := matrices_ne_nil A S sizes hlen hsne hks
  have hks2 : ∀ s ∈ sizes, 1 ≤ s ∧ s ≤ (pySliceTo m (matWidth S) : ℤ) := by
    intro s hs
    exact ⟨(hks s hs).1,
      le_pySliceTo s m _ (hks s hs).1 (hspec.1 s hs) (hks s hs).2⟩
  refine ⟨_, precision_at_ok A S sizes m hm hlen hrA hrS hw hA hks2, ?_, ?_⟩
  · intro p hp
    obtain ⟨s, hs, hps⟩ := List.mem_map.mp hp
    rw [← hps]
    obtain ⟨h1, h2⟩ := hks2 s hs
    have hcolne : (List.zipWith (fun a srow => cumsumRow (gatheredRow a srow m)) A S).map
        (fun r => divQZ (r.getD (s - 1).toNat 0) s) ≠ [] := by
      cases A with
      | nil => exact absurd rfl hA
      | cons a arows =>
        cases S with
        | nil => exact absurd rfl hS
        | cons srow srows => simp
    have hbound : ∀ v ∈ (List.zipWith (fun a srow => cumsumRow (gatheredRow a srow m)) A S).map
        (fun r => divQZ (r.getD (s - 1).toNat 0) s),
        ∃ q : ℚ, v = TVal.num q ∧ 0 ≤ q ∧ q ≤ 1 := by
      intro v hv
      obtain ⟨r, hr, hrv⟩ := List.mem_map.mp hv
      obtain ⟨a, srow, ha, hsrow, hrval⟩ := mem_zipWith hr
      rw [← hrv, hrval]
      have hsC : srow.length = matWidth S := rect_mem_length hrS hsrow
      have hk : (s - 1).toNat < (gatheredRow a srow m).length := by
        rw [length_gatheredRow, hsC]
        omega
      rw [getD_cumsumRow _ _ (by simpa using hk)]
      have hbrow := gatheredRow_binary a srow m (binaryB_mem A hbin ha)
      have hbtake : ∀ x ∈ (gatheredRow a srow m).take ((s - 1).toNat + 1), x = 0 ∨ x = 1 :=
        fun x hx => hbrow x (List.take_subset _ _ hx)
      obtain ⟨hsum0, hsum1⟩ := sum_bounds_of_binary _ hbtake
      have hslen : (((gatheredRow a srow m).take ((s - 1).toNat + 1)).length : ℚ)
          ≤ (s : ℚ) := by
        rw [List.length_take]
        have hmin : (min ((s - 1).toNat + 1) (gatheredRow a srow m).length : ℤ) ≤ s := by
          omega
        exact_mod_cast hmin
      have hspos : (0 : ℚ) < (s : ℚ) := by exact_mod_cast h1
      refine ⟨((gatheredRow a srow m).take ((s - 1).toNat + 1)).sum / (s : ℚ), ?_, ?_, ?_⟩
      · simp [divQZ, divQ, ne_of_gt hspos]
      · positivity
      · rw [div_le_one hspos]
        linarith
    obtain ⟨q, hq, hq0, hq1⟩ := tmean_num_bounds _ hcolne hbound
    exact ⟨q, hq, hq0, hq1⟩
  · intro hz p hp
    obtain ⟨s, hs, hps⟩ := List.mem_map.mp hp
    rw [← hps]
    obtain ⟨h1, h2⟩ := hks2 s hs
    have hcolne : (List.zipWith (fun a srow => cumsumRow (gatheredRow a srow m)) A S).map
        (fun r => divQZ (r.getD (s - 1).toNat 0) s) ≠ [] := by
      cases A with
      | nil => exact absurd rfl hA
      | cons a arows =>
        cases S with
        | nil => exact absurd rfl hS
        | cons srow srows => simp
    have : tmean ((List.zipWith (fun a srow => cumsumRow (gatheredRow a srow m)) A S).map
        (fun r => divQZ (r.getD (s - 1).toNat 0) s)) = TVal.num 0 := by
      apply tmean_all_zero _ hcolne
      intro v hv
      obtain ⟨r, hr, hrv⟩ := List.mem_map.mp hv
      obtain ⟨a, srow, ha, hsrow, hrval⟩ := mem_zipWith hr
      rw [← hrv, hrval]
      have hsC : srow.length = matWidth S := rect_mem_length hrS hsrow
      have hk : (s - 1).toNat < (gatheredRow a srow m).length := by
        rw [length_gatheredRow, hsC]
        omega
      rw [getD_cumsumRow _ _ (by simpa using hk)]
      have hzrow := gatheredRow_zero a srow m (allZeroB_mem A hz ha)
      have hsum : ((gatheredRow a srow m).take ((s - 1).toNat + 1)).sum = 0 :=
        List.sum_eq_zero (fun x hx => hzrow x (List.take_subset _ _ hx))
      rw [hsum]
      have hspos : (0 : ℚ) < (s : ℚ) := by exact_mod_cast h1
      simp [divQZ, divQ, ne_of_gt hspos]
    exact this

/-- Claim C10 (witness): the bounds at a concrete binary batch. -/
theorem precision_at_values_in_unit_interval_witness :
    ∃ l, precision_at [[0, 1], [1, 1]] [[1/2, 1/3], [1/4, 3/4]] [1, 2] = .ok l ∧
      (∀ p ∈ l, ∃ q : ℚ, p.2 = TVal.num q ∧ 0 ≤ q ∧ q ≤ 1) ∧
      (allZeroB [[0, 1], [1, 1]] = true → ∀ p ∈ l, p.2 = TVal.num 0) :=
  precision_at_values_in_unit_interval [[0, 1], [1, 1]] [[1/2, 1/3], [1/4, 3/4]] [1, 2]
    (by decide) (by decide) (by decide) (by decide) (by decide) (by decide) (by decide)

/-- Claim C5: if a sample's relevance row is all zeros its per-sample
recall is the division 0/0 = NaN, and since the division is performed
without masking such samples, recall_at reports NaN as the batch mean for
every requested cutoff. -/
theorem recall_at_nan_propagation (A S : Mat) (sizes : List ℤ)
    (hrA : isRectB A = true) (hrS : isRectB S = true)
    (hlen : A.length = S.length) (hw : matWidth A = matWidth S)
    (hsne : sizes ≠ []) (hks : ∀ s ∈ sizes, 1 ≤ s ∧ s ≤ (matWidth S : ℤ))
    (i : ℕ) (hi : i < A.length) (hz : ∀ x ∈ A.getD i [], x = 0) :
    recall_at A S sizes = .ok (sizes.map (fun s => (s, TVal.nan))) := by
  obtain ⟨m, hm⟩ := maxSizes_ok_of_ne sizes hsne
  have hspec := maxSizes_spec sizes m hm
  obtain ⟨hA, hS⟩ := matrices_ne_nil A S sizes hlen hsne hks
  have hks2 : ∀ s ∈ sizes, 1 ≤ s ∧ s ≤ (pySliceTo m (matWidth S) : ℤ) := by
    intro s hs
    exact ⟨(hks s hs).1,
      le_pySliceTo s m _ (hks s hs).1 (hspec.1 s hs) (hks s hs).2⟩
  rw [recall_at_ok A S sizes m hm hlen hrA hrS hw hA hks2]
  congr 1
  apply List.map_congr_left
  intro s hs
  obtain ⟨h1, h2⟩ := hks2 s hs
  have hiS : i < S.length := by omega
  have hrowlen : (S.getD i []).length = matWidth S :=
    rect_mem_length hrS (mem_of_getD S i [] hiS)
  have hklt : (s - 1).toNat
      < (cumsumRow (gatheredRow (A.getD i []) (S.getD i []) m)).length := by
    rw [length_cumsumRow, length_gatheredRow, hrowlen]
    omega
  have hrow : (List.zipWith (fun a srow =>
        (cumsumRow (gatheredRow a srow m)).map (fun q => divQ q a.sum)) A S).getD i []
      = (cumsumRow (gatheredRow (A.getD i []) (S.getD i []) m)).map
          (fun q => divQ q (A.getD i []).sum) :=
    getD_zipWith _ A S [] [] [] i hi hiS
  have hentry : ((cumsumRow (gatheredRow (A.getD i []) (S.getD i []) m)).map
        (fun q => divQ q (A.getD i []).sum)).getD (s - 1).toNat TVal.nan
      = divQ ((cumsumRow (gatheredRow (A.getD i []) (S.getD i []) m)).getD
          (s - 1).toNat 0) (A.getD i []).sum :=
    getD_map _ _ 0 _ _ hklt
  have hzsum : (A.getD i []).sum = 0 := List.sum_eq_zero hz
  have hcs : (cumsumRow (gatheredRow (A.getD i []) (S.getD i []) m)).getD
      (s - 1).toNat 0 = 0 := by
    rw [getD_cumsumRow _ _ (by simpa using hklt)]
    exact List.sum_eq_zero
      (fun x hx => gatheredRow_zero _ _ m hz x (List.take_subset _ _ hx))
  have hcollen : i < ((List.zipWith (fun a srow =>
      (cumsumRow (gatheredRow a srow m)).map (fun q => divQ q a.sum)) A S).map
      (fun r => r.getD (s - 1).toNat TVal.nan)).length := by
    rw [List.length_map, List.length_zipWith]
    omega
  have hgetcol : ((List.zipWith (fun a srow =>
      (cumsumRow (gatheredRow a srow m)).map (fun q => divQ q a.sum)) A S).map
      (fun r => r.getD (s - 1).toNat TVal.nan)).getD i TVal.nan = TVal.nan := by
    rw [getD_map _ _ [] _ i (by rw [List.length_zipWith]; omega), hrow, hentry,
      hzsum, hcs]
    simp [divQ]
  have hnanmem : TVal.nan ∈ (List.zipWith (fun a srow =>
      (cumsumRow (gatheredRow a srow m)).map (fun q => divQ q a.sum)) A S).map
      (fun r => r.getD (s - 1).toNat TVal.nan) := by
    have hmem := mem_of_getD _ i TVal.nan hcollen
    rw [hgetcol] at hmem
    exact hmem
  have hmean := tmean_eq_nan_of_mem _ hnanmem
  rw [hmean]

/-- Claim C5 (witness): NaN propagation at a concrete batch whose second
sample has no relevant class. -/
theorem recall_at_nan_propagation_witness :
    recall_at [[1, 0], [0, 0]] [[1/2, 1/3], [1/4, 3/4]] [1, 2]
      = .ok [(1, TVal.nan), (2, TVal.nan)] :=
  recall_at_nan_propagation [[1, 0], [0, 0]] [[1/2, 1/3], [1/4, 3/4]] [1, 2]
    (by decide) (by decide) (by decide) (by decide) (by decide) (by decide)
    1 (by decide) (by decide)

/-- Claim C9: for a fixed sample with at least one relevant class, the
per-sample Recall@k computed inside recall_at is a finite rational that is
monotonically non-decreasing in the requested cutoff k. -/
theorem recall_per_sample_monotone (A S : Mat) (sizes : List ℤ)
    (hrA : isRectB A = true) (hrS : isRectB S = true)
    (hlen : A.length = S.length) (hw : matWidth A = matWidth S)
    (hbin : binaryB A = true)
    (k1 k2 : ℤ) (hk1 : k1 ∈ sizes) (hk2 : k2 ∈ sizes) (h12 : k1 ≤ k2)
    (hks : ∀ s ∈ sizes, 1 ≤ s ∧ s ≤ (matWidth S : ℤ))
    (i : ℕ) (hi : i < A.length) (hpos : (1 : ℚ) ∈ A.getD i []) :
    ∃ rows q1 q2, recallPerSample A S sizes = .ok rows ∧
      (rows.getD i []).getD (k1 - 1).toNat TVal.nan = TVal.num q1 ∧
      (rows.getD i []).getD (k2 - 1).toNat TVal.nan = TVal.num q2 ∧
      q1 ≤ q2 := by
  have hsne : sizes ≠ [] := by
    intro h
    rw [h] at hk1
    cases hk1
  obtain ⟨m, hm⟩ := maxSizes_ok_of_ne sizes hsne
  have hspec := maxSizes_spec sizes m hm
  have hiS : i < S.length := by omega
  have hrowlen : (S.getD i []).length = matWidth S :=
    rect_mem_length hrS (mem_of_getD S i [] hiS)
  have hbrow : ∀ x ∈ A.getD i [], x = 0 ∨ x = 1 :=
    binaryB_mem A hbin (mem_of_getD A i [] hi)
  have hnonneg : ∀ x ∈ A.getD i [], 0 ≤ x := by
    intro x hx
    rcases hbrow x hx with h | h <;> simp [h]
  have hsum : (1 : ℚ) ≤ (A.getD i []).sum := List.single_le_sum hnonneg 1 hpos
  have hdpos : (0 : ℚ) < (A.getD i []).sum := by linarith
  have hrow : (List.zipWith (fun a srow =>
        (cumsumRow (gatheredRow a srow m)).map (fun q => divQ q a.sum)) A S).getD i []
      = (cumsumRow (gatheredRow (A.getD i []) (S.getD i []) m)).map
          (fun q => divQ q (A.getD i []).sum) :=
    getD_zipWith _ A S [] [] [] i hi hiS
  have hb1 := hks k1 hk1
  have hb2 := hks k2 hk2
  have hk1p : k1 ≤ (pySliceTo m (matWidth S) : ℤ) :=
    le_pySliceTo k1 m _ hb1.1 (hspec.1 k1 hk1) hb1.2
  have hk2p : k2 ≤ (pySliceTo m (matWidth S) : ℤ) :=
    le_pySliceTo k2 m _ hb2.1 (hspec.1 k2 hk2) hb2.2
  have hklt1 : (k1 - 1).toNat
      < (cumsumRow (gatheredRow (A.getD i []) (S.getD i []) m)).length := by
    rw [length_cumsumRow, length_gatheredRow, hrowlen]
    omega
  have hklt2 : (k2 - 1).toNat
      < (cumsumRow (gatheredRow (A.getD i []) (S.getD i []) m)).length := by
    rw [length_cumsumRow, length_gatheredRow, hrowlen]
    omega
  have hgathb : ∀ y ∈ gatheredRow (A.getD i []) (S.getD i []) m, 0 ≤ y := by
    intro y hy
    rcases gatheredRow_binary _ _ m hbrow y hy with h | h <;> simp [h]
  have hmono : (cumsumRow (gatheredRow (A.getD i []) (S.getD i []) m)).getD
        (k1 - 1).toNat 0
      ≤ (cumsumRow (gatheredRow (A.getD i []) (S.getD i []) m)).getD
        (k2 - 1).toNat 0 := by
    rw [getD_cumsumRow _ _ (by simpa using hklt1),
      getD_cumsumRow _ _ (by simpa using hklt2)]
    exact sum_take_mono _ hgathb _ _ (by omega)
  refine ⟨_,
    ((cumsumRow (gatheredRow (A.getD i []) (S.getD i []) m)).getD (k1 - 1).toNat 0)
      / (A.getD i []).sum,
    ((cumsumRow (gatheredRow (A.getD i []) (S.getD i []) m)).getD (k2 - 1).toNat 0)
      / (A.getD i []).sum,
    recallPerSample_ok A S sizes m hm hlen hrA hrS hw, ?_, ?_, ?_⟩
  · rw [hrow, getD_map _ _ 0 _ _ hklt1]
    unfold divQ
    rw [if_neg hdpos.ne']
  · rw [hrow, getD_map _ _ 0 _ _ hklt2]
    unfold divQ
    rw [if_neg hdpos.ne']
  · exact (div_le_div_iff_of_pos_right hdpos).mpr hmono

/-- Claim C9 (witness): monotonicity at a concrete sample. -/
theorem recall_per_sample_monotone_witness :
    ∃ rows q1 q2,
      recallPerSample [[1, 0], [1, 1]] [[1/2, 1/3], [1/4, 3/4]] [1, 2] = .ok rows ∧
      (rows.getD 0 []).getD ((1 : ℤ) - 1).toNat TVal.nan = TVal.num q1 ∧
      (rows.getD 0 []).getD ((2 : ℤ) - 1).toNat TVal.nan = TVal.num q2 ∧
      q1 ≤ q2 :=
  recall_per_sample_monotone [[1, 0], [1, 1]] [[1/2, 1/3], [1/4, 3/4]] [1, 2]
    (by decide) (by decide) (by decide) (by decide) (by decide)
    1 2 (by decide) (by decide) (by decide) (by decide) 0 (by decide) (by decide)

theorem argsortRowDesc_const (row : List ℚ) (c : ℚ) (h : ∀ x ∈ row, x = c) :
    argsortRowDesc row = List.range row.length := by
  unfold argsortRowDesc
  apply List.Sorted.insertionSort_eq
  have hp := List.pairwise_lt_range row.length
  apply hp.imp_of_mem
  intro a b ha hb hab
  right
  have haN : a < row.length := List.mem_range.mp ha
  have hbN : b < row.length := List.mem_range.mp hb
  rw [getD_of_all_eq row c h a haN, getD_of_all_eq row c h b hbN]
  exact ⟨rfl, le_of_lt hab⟩

/-- Claim C1 (counterexample): under the stable lower-index tie-break the
claim itself stipulates, a sample with uniform scores whose only true
label is class 1 out of 2 gets Precision@1 = 0, while the claimed formula
(number of true labels clipped to k) / k gives min(1,1)/1 = 1. -/
theorem precision_at_tie_formula_counterexample :
    precision_at [[0, 1]] [[1/2, 1/2]] [1] = .ok [(1, TVal.num 0)] ∧
    TVal.num 0 ≠ TVal.num (min (1 : ℚ) 1 / 1) := by
  decide

/-- Claim C1 (amended): the per-sample ranking is the stable descending
argsort (lower original class index wins among tied scores; the embedding
fixes torch.argsort to this policy, which is what the spec declares), and
is a deterministic function of the inputs; consequently, for a batch of
uniformly tied scores, Precision@k is the number of true labels among the
k lowest-indexed classes divided by k — not the total number of true
labels clipped to k. -/
theorem precision_at_uniform_ties (A S : Mat) (sizes : List ℤ)
    (hrA : isRectB A = true) (hrS : isRectB S = true)
    (hlen : A.length = S.length) (hw : matWidth A = matWidth S)
    (hsne : sizes ≠ []) (hks : ∀ s ∈ sizes, 1 ≤ s ∧ s ≤ (matWidth S : ℤ))
    (c : ℚ) (hconst : ∀ srow ∈ S, ∀ x ∈ srow, x = c) :
    precision_at A S sizes = .ok (sizes.map (fun s =>
      (s, tmean (A.map (fun a => TVal.num ((a.take s.toNat).sum / (s : ℚ))))))) := by
  obtain ⟨m, hm⟩ := maxSizes_ok_of_ne sizes hsne
  have hspec := maxSizes_spec sizes m hm
  obtain ⟨hA, hS⟩ := matrices_ne_nil A S sizes hlen hsne hks
  have hks2 : ∀ s ∈ sizes, 1 ≤ s ∧ s ≤ (pySliceTo m (matWidth S) : ℤ) := by
    intro s hs
    exact ⟨(hks s hs).1,
      le_pySliceTo s m _ (hks s hs).1 (hspec.1 s hs) (hks s hs).2⟩
  have hmC := hks m hspec.2
  rw [precision_at_ok A S sizes m hm hlen hrA hrS hw hA hks2]
  congr 1
  apply List.map_congr_left
  intro s hs
  obtain ⟨h1s, h2s⟩ := hks s hs
  have hsm : s ≤ m := hspec.1 s hs
  have hinner : (List.zipWith (fun a srow => cumsumRow (gatheredRow a srow m)) A S).map
      (fun r => divQZ (r.getD (s - 1).toNat 0) s)
      = A.map (fun a => TVal.num ((a.take s.toNat).sum / (s : ℚ))) := by
    rw [List.map_zipWith]
    apply zipWith_eq_map _ _ A S hlen
    intro a ha srow hsrow
    have hCa : a.length = matWidth A := rect_mem_length hrA ha
    have hCs : srow.length = matWidth S := rect_mem_length hrS hsrow
    have hgath : gatheredRow a srow m = a.take m.toNat := by
      unfold gatheredRow
      rw [argsortRowDesc_const srow c (hconst srow hsrow)]
      rw [pySliceTo_of_le m srow.length (by omega) (by omega)]
      rw [List.take_range]
      have hminm : min m.toNat srow.length = m.toNat := by omega
      rw [hminm]
      exact map_getD_range a m.toNat (by omega)
    rw [hgath]
    have hklt : (s - 1).toNat < (a.take m.toNat).length := by
      rw [List.length_take]
      omega
    rw [getD_cumsumRow _ _ hklt, List.take_take]
    have hmin2 : min ((s - 1).toNat + 1) m.toNat = s.toNat := by omega
    rw [hmin2]
    have hspos : (0 : ℚ) < (s : ℚ) := by exact_mod_cast h1s
    unfold divQZ divQ
    rw [if_neg hspos.ne']
  rw [hinner]

/-- Claim C1 (witness): the amended formula at a concrete uniformly tied
batch. -/
theorem precision_at_uniform_ties_witness :
    precision_at [[1, 0, 1]] [[1/3, 1/3, 1/3]] [2]
      = .ok ([2].map (fun s =>
        (s, tmean ([[1, 0, 1]].map (fun a =>
          TVal.num (((a : List ℚ).take (s : ℤ).toNat).sum / ((s : ℤ) : ℚ))))))) :=
  precision_at_uniform_ties [[1, 0, 1]] [[1/3, 1/3, 1/3]] [2]
    (by decide) (by decide) (by decide) (by decide) (by decide) (by decide)
    (1/3) (by decide)

/-- Claim C7 (counterexample): the non-positive cutoff 0, requested next
to the valid cutoff 2, is not reported at call time: precision_at silently
returns a value for it (cumsum[:, -1] wraps to the last kept column and
the division by 0 produces inf). -/
theorem nonpositive_cutoff_not_reported :
    precision_at [[1, 1]] [[1/2, 3/5]] [0, 2]
      = .ok [(0, TVal.inf), (2, TVal.num 1)] := by
  decide

/-- Claim C7 (amended): a cutoff greater than the number of classes does
raise at call time (the column index is out of range for both functions),
but a non-positive cutoff is not an error: next to an in-range maximum
size it silently produces a value through Python negative indexing and
division by the non-positive cutoff. -/
theorem oversized_cutoff_errors (A S : Mat) (sizes : List ℤ)
    (hrA : isRectB A = true) (hrS : isRectB S = true)
    (hlen : A.length = S.length) (hw : matWidth A = matWidth S)
    (s : ℤ) (hs : s ∈ sizes) (hbig : (matWidth S : ℤ) < s) :
    (∃ msg, precision_at A S sizes = .error msg) ∧
    (∃ msg, recall_at A S sizes = .error msg) := by
  have hsne : sizes ≠ [] := by
    intro h
    rw [h] at hs
    cases hs
  obtain ⟨m, hm⟩ := maxSizes_ok_of_ne sizes hsne
  have hg := gather_pipeline A S m hlen hrA hrS hw
  have hwle1 : (matWidth (List.zipWith
      (fun a srow => cumsumRow (gatheredRow a srow m)) A S) : ℤ)
      ≤ (matWidth S : ℤ) := by
    cases A with
    | nil => simp [matWidth]
    | cons a arows =>
      cases S with
      | nil => simp [matWidth]
      | cons srow srows =>
        simp only [List.zipWith_cons_cons, matWidth, List.headD_cons,
          length_cumsumRow, length_gatheredRow]
        exact_mod_cast pySliceTo_le m srow.length
  have hwle2 : (matWidth (List.zipWith (fun a srow =>
      (cumsumRow (gatheredRow a srow m)).map (fun q => divQ q a.sum)) A S) : ℤ)
      ≤ (matWidth S : ℤ) := by
    cases A with
    | nil => simp [matWidth]
    | cons a arows =>
      cases S with
      | nil => simp [matWidth]
      | cons srow srows =>
        simp only [List.zipWith_cons_cons, matWidth, List.headD_cons,
          List.length_map, length_cumsumRow, length_gatheredRow]
        exact_mod_cast pySliceTo_le m srow.length
  constructor
  · simp only [precision_at, hm, hg, List.map_zipWith]
    have hcol : colSelect (List.zipWith
        (fun a srow => cumsumRow (gatheredRow a srow m)) A S) (s - 1) (0 : ℚ)
        = .error "index out of bounds for dimension 1" := by
      unfold colSelect
      rw [pyIndex_none _ _ (by omega)]
    exact mapME_error _ sizes s hs _ (by rw [hcol])
  · have hps := recallPerSample_ok A S sizes m hm hlen hrA hrS hw
    simp only [recall_at, hps]
    have hcol : colSelect (List.zipWith (fun a srow =>
        (cumsumRow (gatheredRow a srow m)).map (fun q => divQ q a.sum)) A S)
        (s - 1) TVal.nan
        = .error "index out of bounds for dimension 1" := by
      unfold colSelect
      rw [pyIndex_none _ _ (by omega)]
    exact mapME_error _ sizes s hs _ (by rw [hcol])

/-- Claim C7 (witness): the call-time error for an oversized cutoff at a
concrete input. -/
theorem oversized_cutoff_errors_witness :
    (∃ msg, precision_at [[1]] [[1/2]] [2] = .error msg) ∧
    (∃ msg, recall_at [[1]] [[1/2]] [2] = .error msg) :=
  oversized_cutoff_errors [[1]] [[1/2]] [2]
    (by decide) (by decide) (by decide) (by decide) 2 (by decide) (by decide)

/-- Claim C6 (counterexample): a shape mismatch that no function reports:
annotations with three classes against scores with two classes are
silently accepted — precision_at and recall_at gather only the scored
columns and mean_average_precision iterates only over score columns,
ignoring the extra annotation column. -/
theorem shape_mismatch_not_failfast :
    (matWidth ([[0, 0, 1]] : Mat) ≠ matWidth ([[2/10, 1/10]] : Mat)) ∧
    precision_at [[0, 0, 1]] [[2/10, 1/10]] [1] = .ok [(1, TVal.num 0)] ∧
    recall_at [[0, 0, 1]] [[2/10, 1/10]] [1] = .ok [(1, TVal.num 0)] ∧
    mean_average_precision [[1, 0, 1]] [[1/2, 1/5]] = .ok (TVal.num 1) := by
  decide

/-- Claim C6 (amended): mean_average_precision fails fast when the two
inputs have different numbers of samples, but none of the three functions
validates the class dimension: annotation matrices with extra columns are
silently truncated to the scored columns instead of raising. -/
theorem shape_check_dichotomy :
    (∀ A S : Mat, A.length ≠ S.length →
      ∃ msg, mean_average_precision A S = .error msg) ∧
    precision_at [[0, 0, 1]] [[2/10, 1/10]] [2] = .ok [(2, TVal.num 0)] ∧
    recall_at [[0, 0, 1]] [[2/10, 1/10]] [2] = .ok [(2, TVal.num 0)] ∧
    mean_average_precision [[0, 1, 1]] [[1/2, 1/5]] = .ok (TVal.num 1) := by
  refine ⟨?_, by decide, by decide, by decide⟩
  intro A S h
  refine ⟨"Found input variables with inconsistent numbers of samples", ?_⟩
  unfold mean_average_precision
  rw [if_pos h]

/-- Claim C6 (witness): the fail-fast sample-count check at a concrete
mismatched pair. -/
theorem shape_check_dichotomy_witness :
    ∃ msg, mean_average_precision [[1]] [[1/2], [1/3]] = .error msg :=
  shape_check_dichotomy.1 [[1]] [[1/2], [1/3]] (by decide)

theorem getLastD_eq_zero (l : List ℚ) (h : ∀ x ∈ l, x = 0) :
    (l.getLast?).getD 0 = 0 := by
  cases hl : l.getLast? with
  | none => rfl
  | some x =>
    have hx : x ∈ l := List.mem_of_mem_getLast? hl
    simp [h x hx]

theorem nanmean_all_nan (l : List TVal) (h : ∀ v ∈ l, v = TVal.nan) :
    nanmean l = TVal.nan := by
  have hfl : l.filter (fun v => decide (v ≠ TVal.nan)) = [] := by
    apply List.filter_eq_nil_iff.mpr
    intro a ha
    simp [h a ha]
  simp only [nanmean, hfl]
  rfl

theorem apSum_nan_head (p : TVal) :
    apSum [TVal.nan, TVal.num 0] [p, TVal.num 1] = TVal.nan := by
  cases p <;> rfl

theorem apFromCurve_cons_zero (i0 : ℕ) (irest : List ℕ) (trest : List ℚ)
    (h : ∀ x ∈ trest, x = 0) :
    apFromCurve (i0 :: irest) (0 :: trest) = TVal.nan := by
  have hlast : (((0 : ℚ) :: trest).getLast?).getD 0 = 0 := by
    apply getLastD_eq_zero
    intro x hx
    rcases List.mem_cons.mp hx with h1 | h1
    · exact h1
    · exact h x h1
  simp only [apFromCurve, hlast]
  have hfind : searchsortedLeft ((0 : ℚ) :: trest) 0 = 0 := by
    simp [searchsortedLeft, List.findIdx_cons]
  rw [hfind]
  simp only [revSliceFrom, List.zipWith_cons_cons, List.map_cons, List.take_succ_cons,
    List.take_zero, List.reverse_cons, List.reverse_nil, List.nil_append,
    List.singleton_append]
  have hdiv0 : divQ 0 0 = TVal.nan := by simp [divQ]
  rw [hdiv0]
  exact apSum_nan_head _

theorem averagePrecisionCol_all_zero (ytrue yscore : List ℚ)
    (h : ∀ x ∈ ytrue, x = 0) : averagePrecisionCol ytrue yscore = TVal.nan := by
  obtain ⟨i0, irest, hidx⟩ : ∃ i0 irest,
      thresholdIdxsOf ((descSortIndicesNp yscore).map (fun i => yscore.getD i 0))
        = i0 :: irest := by
    apply List.exists_cons_of_ne_nil
    unfold thresholdIdxsOf
    simp
  have hcs : ∀ j : ℕ,
      (cumsumRow ((descSortIndicesNp yscore).map (fun i => ytrue.getD i 0))).getD j 0
        = 0 := by
    intro j
    by_cases hj : j < (cumsumRow ((descSortIndicesNp yscore).map
        (fun i => ytrue.getD i 0))).length
    · rw [getD_cumsumRow _ _ (by simpa using hj)]
      apply List.sum_eq_zero
      intro x hx
      have hx2 := List.take_subset _ _ hx
      obtain ⟨i, hi, hix⟩ := List.mem_map.mp hx2
      rw [← hix]
      exact getD_zero_of_all_zero ytrue h i
    · exact List.getD_eq_default _ _ (by omega)
  simp only [averagePrecisionCol, hidx, List.map_cons, hcs]
  apply apFromCurve_cons_zero
  intro x hx
  obtain ⟨j, hj, hjx⟩ := List.mem_map.mp hx
  exact hjx.symm

/-- Claim C4: mean_average_precision is the NaN-skipping mean of the
per-class average precisions (macro averaging); a class column with no
positive sample has AP NaN (not 0) and is skipped by the mean; and when
every class column is all zeros the function returns NaN without raising
any error. -/
theorem mAP_is_nanmean_of_per_class_AP (A S : Mat)
    (hlen : A.length = S.length) (hrA : isRectB A = true) (hrS : isRectB S = true)
    (hw : matWidth A = matWidth S) (hbin : binaryB A = true) :
    mean_average_precision A S = .ok (nanmean ((List.range (matWidth S)).map
      (fun c => averagePrecisionCol (columnOf A c) (columnOf S c)))) ∧
    (∀ c : ℕ, (∀ x ∈ columnOf A c, x = 0) →
      averagePrecisionCol (columnOf A c) (columnOf S c) = TVal.nan) ∧
    (allZeroB A = true → mean_average_precision A S = .ok TVal.nan) := by
  have hmain : mean_average_precision A S
      = .ok (nanmean ((List.range (matWidth S)).map
          (fun c => averagePrecisionCol (columnOf A c) (columnOf S c)))) := by
    unfold mean_average_precision
    rw [if_neg (by simp [hlen]), if_neg (by simp [hrA, hrS]), if_neg (by simp [hbin])]
    rw [mapME_ok _ (fun c => averagePrecisionCol (columnOf A c) (columnOf S c)) _ ?_]
    intro c hc
    have hlt : c < matWidth A := by
      rw [hw]
      exact List.mem_range.mp hc
    simp [hlt]
  refine ⟨hmain, ?_, ?_⟩
  · intro c hc
    exact averagePrecisionCol_all_zero _ _ hc
  · intro hz
    rw [hmain]
    have : nanmean ((List.range (matWidth S)).map
        (fun c => averagePrecisionCol (columnOf A c) (columnOf S c))) = TVal.nan := by
      apply nanmean_all_nan
      intro v hv
      obtain ⟨c, hcr, hcv⟩ := List.mem_map.mp hv
      rw [← hcv]
      apply averagePrecisionCol_all_zero
      intro x hx
      obtain ⟨r, hr, hrx⟩ := List.mem_map.mp hx
      rw [← hrx]
      exact getD_zero_of_all_zero r (allZeroB_mem A hz hr) c
    rw [this]

/-- Claim C4 (witness): the degenerate batch from the spec scenario — one
sample, four classes, no positive annotation — yields NaN and no error. -/
theorem mAP_is_nanmean_of_per_class_AP_witness :
    mean_average_precision [[0, 0, 0, 0]] [[1/10, 2/10, 3/10, 4/10]]
      = .ok TVal.nan :=
  (mAP_is_nanmean_of_per_class_AP [[0, 0, 0, 0]] [[1/10, 2/10, 3/10, 4/10]]
    (by decide) (by decide) (by decide) (by decide) (by decide)).2.2 (by decide)

/-- Claim C3 (witness): the equivalence at a concrete two-batch run with
sizes (1,). -/
theorem epoch_compute_eq_pure_on_concat_witness :
    MeanAveragePrecisionEpoch.compute
        (([([[1, 0]], [[1/2, 1/4]]), ([[0, 1]], [[1/3, 2/3]])] : List (Mat × Mat)).foldl
          MeanAveragePrecisionEpoch.update MeanAveragePrecisionEpoch.reset)
      = mean_average_precision [[1, 0], [0, 1]] [[1/2, 1/4], [1/3, 2/3]] ∧
    RecallAtEpoch.compute
        (([([[1, 0]], [[1/2, 1/4]]), ([[0, 1]], [[1/3, 2/3]])] : List (Mat × Mat)).foldl
          RecallAtEpoch.update (RecallAtEpoch.init [1]))
      = recall_at [[1, 0], [0, 1]] [[1/2, 1/4], [1/3, 2/3]] [1] :=
  epoch_compute_eq_pure_on_concat
    [([[1, 0]], [[1/2, 1/4]]), ([[0, 1]], [[1/3, 2/3]])] [1]
    (by decide) (by decide) (by decide)

end WsVrd
